import Mathlib

/-!
Verification of the RedNote share core of `src/main.ts`: front-matter
stripping (`generateRedNoteImages`), pagination (`splitContentIntoPages`),
word wrapping (`wrapText`) and page rendering (`generateSinglePageImage`).
Text is modelled as `List Char`; canvas drawing is modelled as the list of
draw operations a render emits; the font-measurement backend
(`ctx.measureText`) is an arbitrary function `List Char → Nat`.
-/

set_option maxRecDepth 4000

/-- Splits a character list on a separator character, mirroring JavaScript
`String.prototype.split` with a one-character separator: the result has one
piece more than the number of separators and may contain empty pieces. -/
def splitOnCharL (sep : Char) : List Char → List (List Char)
  | [] => [[]]
  | c :: cs =>
    match splitOnCharL sep cs with
    | [] => [[]]
    | w :: ws => if c = sep then [] :: w :: ws else (c :: w) :: ws

/-- A line is blank when every character is whitespace: exactly when the
JavaScript test `line.trim()` is falsy for a line without line breaks. -/
def isBlankLine (l : List Char) : Bool := l.all (fun c => c.isWhitespace)

/-- The `paragraphs` array of `splitContentIntoPages`:
`content.split('\n').filter(line => line.trim())`. -/
def nonBlankLines (content : List Char) : List (List Char) :=
  (splitOnCharL '\n' content).filter (fun line => !isBlankLine line)

/-- The `PageContent` interface of `src/main.ts`. -/
structure PageContent where
  title : List Char
  content : List (List Char)
  pageNumber : Nat
  totalPages : Nat
deriving DecidableEq, Repr

/-- The fixed continuation title `'继续阅读'` given to every page after the
first. -/
def contTitle : List Char := ['继', '续', '阅', '读']

/-- The loop of `splitContentIntoPages`: pushes each paragraph onto the
current page buffer and emits a page when the buffer holds 12 lines or the
paragraph is the last one. `first` is `paragraphs[0]` and `total` the
precomputed `Math.ceil(paragraphs.length / 12)`. -/
def buildPages (first : List Char) (total : Nat) :
    List (List Char) → List (List Char) → Nat → List PageContent
  | [], _, _ => []
  | p :: ps, currentPage, pageCount =>
    let cur := currentPage ++ [p]
    if 12 ≤ cur.length ∨ ps = [] then
      { title := if pageCount + 1 = 1 then first else contTitle,
        content := cur,
        pageNumber := pageCount + 1,
        totalPages := total } :: buildPages first total ps [] (pageCount + 1)
    else
      buildPages first total ps cur pageCount

/-- `splitContentIntoPages` of `src/main.ts`: filters blank lines, then packs
the remaining lines into pages of at most 12 lines. `Math.ceil(n / 12)` on a
natural number is `(n + 11) / 12`. -/
def splitContentIntoPages (content : List Char) : List PageContent :=
  let paragraphs := nonBlankLines content
  buildPages (paragraphs.headD []) ((paragraphs.length + 11) / 12) paragraphs [] 0

/-- Finds the least index at which `['-','-','-','\n']` starts in `l`:
the lazy search performed by `[\s\S]*?---\n` in the front-matter regex. -/
def findEndMarker : List Char → Option Nat
  | [] => none
  | c :: cs =>
    if (c :: cs).take 4 = ['-', '-', '-', '\n'] then some 0
    else (findEndMarker cs).map (fun k => k + 1)

/-- The front-matter stripping step of `generateRedNoteImages`:
`content.replace(/^---[\s\S]*?---\n/, '')`. The match is anchored at the
start, requires the literal `---` there, then lazily scans for the earliest
`---\n` and removes everything up to and including it; with no match the
content is unchanged. -/
def stripFrontMatter (s : List Char) : List Char :=
  if s.take 3 = ['-', '-', '-'] then
    match findEndMarker (s.drop 3) with
    | some k => s.drop (3 + k + 4)
    | none => s
  else s

/-- Concatenating the emitted pages' line lists recovers the buffer followed
by the remaining paragraphs (and nothing when no paragraph remains). -/
lemma buildPages_join (f : List Char) (t : Nat) :
    ∀ (ps cur : List (List Char)) (cnt : Nat),
      ((buildPages f t ps cur cnt).map (fun pg => pg.content)).flatten
        = if ps = [] then [] else cur ++ ps := by
  intro ps
  induction ps with
  | nil => intro cur cnt; simp [buildPages]
  | cons p ps ih =>
    intro cur cnt
    rcases eq_or_ne ps [] with hps | hps
    · subst hps; simp [buildPages, ih]
    · by_cases hc : 11 ≤ cur.length
      · simp [buildPages, hc, hps, ih]
      · simp [buildPages, hc, hps, ih]

/-- Unfolding equation of `buildPages` on a non-empty paragraph list. -/
lemma buildPages_cons (f : List Char) (t : Nat) (p : List Char)
    (ps cur : List (List Char)) (cnt : Nat) :
    buildPages f t (p :: ps) cur cnt
      = if 12 ≤ (cur ++ [p]).length ∨ ps = [] then
          { title := if cnt + 1 = 1 then f else contTitle,
            content := cur ++ [p],
            pageNumber := cnt + 1,
            totalPages := t } :: buildPages f t ps [] (cnt + 1)
        else buildPages f t ps (cur ++ [p]) cnt := rfl

/-- While the buffer holds fewer than 12 lines, the emitted page numbers are
the contiguous range starting after `cnt`, of length
`ceil((buffered + remaining) / 12)`. -/
lemma buildPages_pageNumbers (f : List Char) (t : Nat) :
    ∀ (ps cur : List (List Char)) (cnt : Nat), cur.length < 12 →
      (buildPages f t ps cur cnt).map (fun pg => pg.pageNumber)
        = if ps = [] then []
          else List.range' (cnt + 1) ((cur.length + ps.length + 11) / 12) := by
  intro ps
  induction ps with
  | nil => intro cur cnt _; simp [buildPages]
  | cons p ps ih =>
    intro cur cnt hlt
    rw [buildPages_cons, if_neg (List.cons_ne_nil p ps)]
    rcases eq_or_ne ps [] with hps | hps
    · subst hps
      rw [if_pos (Or.inr rfl)]
      have h1 : (cur.length + ([p] : List (List Char)).length + 11) / 12 = 1 := by
        simp only [List.length_singleton]; omega
      rw [h1]
      simp [buildPages, List.range']
    · by_cases hc : 11 ≤ cur.length
      · rw [if_pos (Or.inl (by simp only [List.length_append,
          List.length_singleton]; omega))]
        have h2 : (cur.length + (p :: ps).length + 11) / 12
            = (([] : List (List Char)).length + ps.length + 11) / 12 + 1 := by
          simp only [List.length_cons, List.length_nil]; omega
        rw [h2, List.range'_succ]
        simp only [List.map_cons, ih [] (cnt + 1) (by simp), if_neg hps]
      · have hlen : (cur ++ [p]).length < 12 := by
          simp only [List.length_append, List.length_singleton]
          omega
        have hCneg : ¬(12 ≤ (cur ++ [p]).length ∨ ps = []) := by
          rintro (h | h)
          · omega
          · exact hps h
        rw [if_neg hCneg, ih (cur ++ [p]) cnt hlen, if_neg hps]
        have h3 : ((cur ++ [p]).length + ps.length + 11) / 12
            = (cur.length + (p :: ps).length + 11) / 12 := by
          have h4 : (cur ++ [p]).length = cur.length + 1 := by simp
          have h5 : (p :: ps).length = ps.length + 1 := by simp
          rw [h4, h5]
          congr 1
          omega
        rw [h3]

/-- Every emitted page is stamped with the precomputed total. -/
lemma buildPages_totalPages (f : List Char) (t : Nat) :
    ∀ (ps cur : List (List Char)) (cnt : Nat) (pg : PageContent),
      pg ∈ buildPages f t ps cur cnt → pg.totalPages = t := by
  intro ps
  induction ps with
  | nil => intro cur cnt pg h; simp [buildPages] at h
  | cons p ps ih =>
    intro cur cnt pg h
    rw [buildPages_cons] at h
    by_cases hC : 12 ≤ (cur ++ [p]).length ∨ ps = []
    · rw [if_pos hC] at h
      rcases List.mem_cons.mp h with h | h
      · rw [h]
      · exact ih [] (cnt + 1) pg h
    · rw [if_neg hC] at h
      exact ih (cur ++ [p]) cnt pg h

/-- Every emitted page's title is the first paragraph on page 1 and the fixed
continuation title on every later page. -/
lemma buildPages_title (f : List Char) (t : Nat) :
    ∀ (ps cur : List (List Char)) (cnt : Nat) (pg : PageContent),
      pg ∈ buildPages f t ps cur cnt →
        pg.title = if pg.pageNumber = 1 then f else contTitle := by
  intro ps
  induction ps with
  | nil => intro cur cnt pg h; simp [buildPages] at h
  | cons p ps ih =>
    intro cur cnt pg h
    rw [buildPages_cons] at h
    by_cases hC : 12 ≤ (cur ++ [p]).length ∨ ps = []
    · rw [if_pos hC] at h
      rcases List.mem_cons.mp h with h | h
      · rw [h]
      · exact ih [] (cnt + 1) pg h
    · rw [if_neg hC] at h
      exact ih (cur ++ [p]) cnt pg h

/-- Every emitted page carries at least one content line. -/
lemma buildPages_content_ne_nil (f : List Char) (t : Nat) :
    ∀ (ps cur : List (List Char)) (cnt : Nat) (pg : PageContent),
      pg ∈ buildPages f t ps cur cnt → pg.content ≠ [] := by
  intro ps
  induction ps with
  | nil => intro cur cnt pg h; simp [buildPages] at h
  | cons p ps ih =>
    intro cur cnt pg h
    rw [buildPages_cons] at h
    by_cases hC : 12 ≤ (cur ++ [p]).length ∨ ps = []
    · rw [if_pos hC] at h
      rcases List.mem_cons.mp h with h | h
      · rw [h]
        simp
      · exact ih [] (cnt + 1) pg h
    · rw [if_neg hC] at h
      exact ih (cur ++ [p]) cnt pg h

/-- On a non-empty paragraph list the first emitted page numbers itself
`cnt + 1` and its content starts with the buffer followed by the first
remaining paragraph. -/
lemma buildPages_first (f : List Char) (t : Nat) :
    ∀ (ps : List (List Char)) (p : List Char) (cur : List (List Char)) (cnt : Nat),
      ∃ pg rest tl, buildPages f t (p :: ps) cur cnt = pg :: rest
        ∧ pg.pageNumber = cnt + 1 ∧ pg.content = cur ++ p :: tl := by
  intro ps
  induction ps with
  | nil =>
    intro p cur cnt
    rw [buildPages_cons, if_pos (Or.inr rfl)]
    exact ⟨_, _, [], rfl, rfl, rfl⟩
  | cons q ps ih =>
    intro p cur cnt
    by_cases hC : 12 ≤ (cur ++ [p]).length ∨ q :: ps = []
    · rw [buildPages_cons, if_pos hC]
      exact ⟨_, _, [], rfl, rfl, rfl⟩
    · rw [buildPages_cons, if_neg hC]
      obtain ⟨pg, rest, tl, heq, hnum, hcont⟩ := ih q (cur ++ [p]) cnt
      refine ⟨pg, rest, q :: tl, heq, hnum, ?_⟩
      rw [hcont]
      simp

/-- A found index is a marker position and the least one. -/
lemma findEndMarker_some :
    ∀ (l : List Char) (k : Nat), findEndMarker l = some k →
      (l.drop k).take 4 = ['-', '-', '-', '\n']
      ∧ ∀ j < k, (l.drop j).take 4 ≠ ['-', '-', '-', '\n'] := by
  intro l
  induction l with
  | nil => intro k h; simp [findEndMarker] at h
  | cons c cs ih =>
    intro k h
    rw [findEndMarker] at h
    by_cases hm : (c :: cs).take 4 = ['-', '-', '-', '\n']
    · rw [if_pos hm] at h
      obtain rfl : k = 0 := by
        simpa using h.symm
      exact ⟨hm, by omega⟩
    · rw [if_neg hm] at h
      rcases Option.map_eq_some'.mp h with ⟨m, hm', rfl⟩
      obtain ⟨h1, h2⟩ := ih m hm'
      refine ⟨h1, ?_⟩
      intro j hj
      cases j with
      | zero => simpa using hm
      | succ j => exact h2 j (by omega)

/-- A failed search means no marker occurs at any index. -/
lemma findEndMarker_none :
    ∀ (l : List Char), findEndMarker l = none →
      ∀ j, (l.drop j).take 4 ≠ ['-', '-', '-', '\n'] := by
  intro l
  induction l with
  | nil => intro _ j; simp
  | cons c cs ih =>
    intro h j
    rw [findEndMarker] at h
    by_cases hm : (c :: cs).take 4 = ['-', '-', '-', '\n']
    · rw [if_pos hm] at h; simp at h
    · rw [if_neg hm] at h
      cases j with
      | zero => simpa using hm
      | succ j =>
        have h' : findEndMarker cs = none := by
          cases hfind : findEndMarker cs with
          | none => rfl
          | some m => rw [hfind] at h; simp at h
        exact ih h' j

/-- A marker at any index guarantees the search succeeds at an index no
later than it. -/
lemma findEndMarker_complete :
    ∀ (l : List Char) (k : Nat), (l.drop k).take 4 = ['-', '-', '-', '\n'] →
      ∃ m, findEndMarker l = some m ∧ m ≤ k := by
  intro l
  induction l with
  | nil => intro k h; simp at h
  | cons c cs ih =>
    intro k h
    by_cases hm : (c :: cs).take 4 = ['-', '-', '-', '\n']
    · exact ⟨0, by rw [findEndMarker, if_pos hm], Nat.zero_le k⟩
    · cases k with
      | zero => exact absurd h hm
      | succ k =>
        obtain ⟨m, hfind, hle⟩ := ih k (by simpa using h)
        refine ⟨m + 1, ?_, by omega⟩
        rw [findEndMarker, if_neg hm, hfind]
        rfl

/-- Claim C1: for every document, the `content` sequences of the pages
returned by the paginator, concatenated in page order, equal exactly the
non-blank lines of the front-matter-stripped document in their original
relative order — no line lost, duplicated or reordered. -/
theorem claim_C1 (D : List Char) :
    ((splitContentIntoPages (stripFrontMatter D)).map
        (fun pg => pg.content)).flatten
      = nonBlankLines (stripFrontMatter D) := by
  simp only [splitContentIntoPages]
  rw [buildPages_join]
  rcases eq_or_ne (nonBlankLines (stripFrontMatter D)) [] with h | h
  · rw [if_pos h, h]
  · rw [if_neg h, List.nil_append]

/-- Claim C2: for a document with N non-blank lines, N > 0, every returned
page carries `totalPages = ceil(N / 12)` and the page numbers in order are
the contiguous sequence `1, ..., totalPages`. -/
theorem claim_C2 (D : List Char) (h : 0 < (nonBlankLines D).length) :
    (∀ pg ∈ splitContentIntoPages D,
        pg.totalPages = ((nonBlankLines D).length + 11) / 12)
    ∧ (splitContentIntoPages D).map (fun pg => pg.pageNumber)
        = List.range' 1 (((nonBlankLines D).length + 11) / 12) := by
  constructor
  · intro pg hpg
    exact buildPages_totalPages _ _ _ _ _ pg
      (by simpa only [splitContentIntoPages] using hpg)
  · have hne : nonBlankLines D ≠ [] := by
      intro hnil
      rw [hnil] at h
      simp at h
    simp only [splitContentIntoPages]
    rw [buildPages_pageNumbers _ _ _ _ _ (by simp), if_neg hne]
    simp

/-- Claim C2 witness at the two-line document `"a\nb"`. -/
theorem claim_C2_witness :
    (∀ pg ∈ splitContentIntoPages (String.toList "a\nb"),
        pg.totalPages = ((nonBlankLines (String.toList "a\nb")).length + 11) / 12)
    ∧ (splitContentIntoPages (String.toList "a\nb")).map (fun pg => pg.pageNumber)
        = List.range' 1 (((nonBlankLines (String.toList "a\nb")).length + 11) / 12) :=
  claim_C2 (String.toList "a\nb") (by decide)

/-- Claim C3: no returned page has an empty content-line sequence, and a
document with zero non-blank lines yields an empty page sequence. -/
theorem claim_C3 (D : List Char) :
    (∀ pg ∈ splitContentIntoPages D, pg.content ≠ [])
    ∧ (nonBlankLines D = [] → splitContentIntoPages D = []) := by
  constructor
  · intro pg hpg
    exact buildPages_content_ne_nil _ _ _ _ _ pg
      (by simpa only [splitContentIntoPages] using hpg)
  · intro h
    simp only [splitContentIntoPages, h]
    rfl

/-- Claim C4: for a document with at least one non-blank line, the first
returned page numbers itself 1, its title is the very first non-blank line,
that line is also the first element of page 1's content, and every page with
page number greater than 1 bears the fixed continuation title `'继续阅读'`. -/
theorem claim_C4 (D : List Char) (h : nonBlankLines D ≠ []) :
    (∃ pg rest, splitContentIntoPages D = pg :: rest
        ∧ pg.pageNumber = 1
        ∧ pg.title = (nonBlankLines D).headD []
        ∧ pg.content.head? = some pg.title)
    ∧ ∀ pg ∈ splitContentIntoPages D, 1 < pg.pageNumber → pg.title = contTitle := by
  have hsp : splitContentIntoPages D
      = buildPages ((nonBlankLines D).headD [])
          (((nonBlankLines D).length + 11) / 12) (nonBlankLines D) [] 0 := rfl
  constructor
  · obtain ⟨p, ps, hD⟩ := List.exists_cons_of_ne_nil h
    obtain ⟨pg, rest, tl, heq, hnum, hcont⟩ :=
      buildPages_first ((nonBlankLines D).headD [])
        (((nonBlankLines D).length + 11) / 12) ps p [] 0
    have heq2 : splitContentIntoPages D = pg :: rest :=
      (hsp.trans (congrArg
        (fun l => buildPages ((nonBlankLines D).headD [])
          (((nonBlankLines D).length + 11) / 12) l [] 0) hD)).trans heq
    have hnum1 : pg.pageNumber = 1 := by omega
    have hmem : pg ∈ buildPages ((nonBlankLines D).headD [])
        (((nonBlankLines D).length + 11) / 12) (nonBlankLines D) [] 0 := by
      rw [← hsp, heq2]
      exact List.mem_cons_self pg rest
    have ht := buildPages_title _ _ _ _ _ pg hmem
    have htitle : pg.title = (nonBlankLines D).headD [] := by
      rw [ht, if_pos hnum1]
    refine ⟨pg, rest, heq2, hnum1, htitle, ?_⟩
    have hp : pg.title = p := by
      rw [htitle, hD]
      rfl
    rw [hcont, hp]
    simp
  · intro pg hpg h1
    have ht := buildPages_title _ _ _ _ _ pg (by rw [← hsp]; exact hpg)
    rw [ht, if_neg (by omega)]

/-- Claim C4 witness at the document `"t\nbody"`. -/
theorem claim_C4_witness :
    (∃ pg rest, splitContentIntoPages (String.toList "t\nbody") = pg :: rest
        ∧ pg.pageNumber = 1
        ∧ pg.title = (nonBlankLines (String.toList "t\nbody")).headD []
        ∧ pg.content.head? = some pg.title)
    ∧ ∀ pg ∈ splitContentIntoPages (String.toList "t\nbody"),
        1 < pg.pageNumber → pg.title = contTitle :=
  claim_C4 (String.toList "t\nbody") (by decide)

/-- Claim C5 counterexample: on `"---a---\nrest"` neither the start marker
nor the end marker stands on a line of its own — no line of the document is
`---` — yet the stripping step removes the leading block anyway, leaving
`"rest"`. The removal is therefore not restricted to blocks whose markers
occupy their own lines, refuting the claim's "exactly when". -/
theorem claim_C5_counterexample :
    stripFrontMatter (String.toList "---a---\nrest") = String.toList "rest"
    ∧ String.toList "---" ∉ splitOnCharL '\n' (String.toList "---a---\nrest") := by
  decide

/-- Claim C5 (amended): stripping is anchored at the start of the document —
a document whose first three characters are not `---` is left unchanged; a
document starting with `---` but containing no later `---` immediately
followed by a line break is left unchanged; and when such an occurrence
exists the earliest one is used (first match, non-greedy) and exactly the
prefix up to and including its line break is removed, before any pagination.
The markers need not stand on lines of their own. -/
theorem claim_C5_amended (s : List Char) :
    (s.take 3 ≠ ['-', '-', '-'] → stripFrontMatter s = s)
    ∧ ((∀ j, ((s.drop 3).drop j).take 4 ≠ ['-', '-', '-', '\n']) →
        stripFrontMatter s = s)
    ∧ (∀ k, s.take 3 = ['-', '-', '-'] →
        ((s.drop 3).drop k).take 4 = ['-', '-', '-', '\n'] →
        ∃ m, m ≤ k ∧ ((s.drop 3).drop m).take 4 = ['-', '-', '-', '\n']
          ∧ (∀ j < m, ((s.drop 3).drop j).take 4 ≠ ['-', '-', '-', '\n'])
          ∧ stripFrontMatter s = s.drop (3 + m + 4)) := by
  refine ⟨?_, ?_, ?_⟩
  · intro h
    rw [stripFrontMatter, if_neg h]
  · intro h
    rw [stripFrontMatter]
    by_cases hpre : s.take 3 = ['-', '-', '-']
    · rw [if_pos hpre]
      cases hfind : findEndMarker (s.drop 3) with
      | none => rfl
      | some k => exact absurd (findEndMarker_some _ k hfind).1 (h k)
    · rw [if_neg hpre]
  · intro k hpre hk
    obtain ⟨m, hfind, hle⟩ := findEndMarker_complete (s.drop 3) k hk
    obtain ⟨h1, h2⟩ := findEndMarker_some _ m hfind
    refine ⟨m, hle, h1, h2, ?_⟩
    rw [stripFrontMatter, if_pos hpre, hfind]

/-- The greedy loop of `wrapText`: for each word tentatively append
`word + ' '`, measure, and close the current fragment when the tentative
fragment is too wide and the current fragment is non-empty; at the end the
current fragment is pushed unconditionally. -/
def wrapLoop (measure : List Char → Nat) (maxWidth : Nat) :
    List (List Char) → List Char → List (List Char)
  | [], currentLine => [currentLine]
  | word :: ws, currentLine =>
    let testLine := currentLine ++ word ++ [' ']
    if maxWidth < measure testLine ∧ currentLine ≠ [] then
      currentLine :: wrapLoop measure maxWidth ws (word ++ [' '])
    else
      wrapLoop measure maxWidth ws testLine

/-- `wrapText` of `src/main.ts`: splits on single spaces and runs the greedy
line fill, starting from an empty current fragment. The canvas context is
abstracted to its `measureText` function. -/
def wrapText (measure : List Char → Nat) (text : List Char) (maxWidth : Nat) :
    List (List Char) :=
  wrapLoop measure maxWidth (splitOnCharL ' ' text) []

/-- Splitting never yields an empty piece list. -/
lemma splitOnCharL_ne_nil (sep : Char) :
    ∀ l : List Char, splitOnCharL sep l ≠ [] := by
  intro l
  induction l with
  | nil => simp [splitOnCharL]
  | cons c cs ih =>
    rw [splitOnCharL]
    cases hs : splitOnCharL sep cs with
    | nil => exact absurd hs ih
    | cons w ws =>
      by_cases hc : c = sep
      · simp [hc]
      · simp [hc]

/-- No piece produced by splitting contains the separator. -/
lemma splitOnCharL_not_mem (sep : Char) :
    ∀ (l : List Char) (w : List Char), w ∈ splitOnCharL sep l → sep ∉ w := by
  intro l
  induction l with
  | nil =>
    intro w hw
    simp [splitOnCharL] at hw
    simp [hw]
  | cons c cs ih =>
    intro w hw
    cases hs : splitOnCharL sep cs with
    | nil => exact absurd hs (splitOnCharL_ne_nil sep cs)
    | cons w0 ws =>
      simp only [splitOnCharL, hs] at hw
      by_cases hc : c = sep
      · rw [if_pos hc] at hw
        rcases List.mem_cons.mp hw with rfl | hw
        · simp
        · exact ih w (hs ▸ hw)
      · rw [if_neg hc] at hw
        rcases List.mem_cons.mp hw with rfl | hw
        · intro hmem
          rcases List.mem_cons.mp hmem with rfl | hmem
          · exact hc rfl
          · exact ih w0 (hs ▸ List.mem_cons_self w0 ws) hmem
        · exact ih w (hs ▸ List.mem_cons.mpr (Or.inr hw))

/-- Gluing the pieces back with the separator after each piece recovers the
original text followed by one trailing separator. -/
lemma splitOnCharL_flatten (sep : Char) :
    ∀ l : List Char,
      ((splitOnCharL sep l).map (fun w => w ++ [sep])).flatten = l ++ [sep] := by
  intro l
  induction l with
  | nil => simp [splitOnCharL]
  | cons c cs ih =>
    cases hs : splitOnCharL sep cs with
    | nil => exact absurd hs (splitOnCharL_ne_nil sep cs)
    | cons w0 ws =>
      rw [hs] at ih
      simp only [splitOnCharL, hs]
      by_cases hc : c = sep
      · rw [if_pos hc, hc]
        simpa using ih
      · rw [if_neg hc]
        simpa using ih

/-- Every fragment the greedy loop emits is the concatenation of the words it
consumed, each with its trailing space; flattening recovers the starting
fragment followed by all remaining words. -/
lemma wrapLoop_flatten (measure : List Char → Nat) (maxWidth : Nat) :
    ∀ (ws : List (List Char)) (cur : List Char),
      (wrapLoop measure maxWidth ws cur).flatten
        = cur ++ (ws.map (fun w => w ++ [' '])).flatten := by
  intro ws
  induction ws with
  | nil => intro cur; simp [wrapLoop]
  | cons w ws ih =>
    intro cur
    rw [wrapLoop]
    by_cases hc : maxWidth < measure (cur ++ w ++ [' ']) ∧ cur ≠ []
    · rw [if_pos hc]
      simp [ih]
    · rw [if_neg hc]
      simp [ih]

/-- The greedy loop always emits at least one fragment. -/
lemma wrapLoop_ne_nil (measure : List Char → Nat) (maxWidth : Nat) :
    ∀ (ws : List (List Char)) (cur : List Char),
      wrapLoop measure maxWidth ws cur ≠ [] := by
  intro ws
  induction ws with
  | nil => intro cur; simp [wrapLoop]
  | cons w ws ih =>
    intro cur
    rw [wrapLoop]
    by_cases hc : maxWidth < measure (cur ++ w ++ [' ']) ∧ cur ≠ []
    · rw [if_pos hc]
      simp
    · rw [if_neg hc]
      exact ih _

/-- Invariant of the greedy loop: provided the current fragment is empty,
narrow enough, or a lone word with its trailing space, every emitted fragment
is either narrow enough or a lone word with its trailing space; the empty
fragment can only be emitted when it is the starting fragment and there are
no words at all. -/
lemma wrapLoop_fragments (measure : List Char → Nat) (maxWidth : Nat)
    (toks : List (List Char)) :
    ∀ (ws : List (List Char)) (cur : List Char),
      (cur = [] ∨ measure cur ≤ maxWidth ∨ ∃ w ∈ toks, cur = w ++ [' ']) →
      (∀ w ∈ ws, w ∈ toks) →
      ∀ frag ∈ wrapLoop measure maxWidth ws cur,
        (measure frag ≤ maxWidth ∨ ∃ w ∈ toks, frag = w ++ [' '])
        ∨ (frag = [] ∧ cur = [] ∧ ws = []) := by
  intro ws
  induction ws with
  | nil =>
    intro cur hcur _ frag hfrag
    rw [wrapLoop] at hfrag
    rcases List.mem_singleton.mp hfrag with rfl
    rcases hcur with h | h | h
    · exact Or.inr ⟨h ▸ rfl, h, rfl⟩
    · exact Or.inl (Or.inl h)
    · exact Or.inl (Or.inr h)
  | cons w ws ih =>
    intro cur hcur hmem frag hfrag
    have hw : w ∈ toks := hmem w (List.mem_cons_self w ws)
    have hmem' : ∀ u ∈ ws, u ∈ toks :=
      fun u hu => hmem u (List.mem_cons.mpr (Or.inr hu))
    rw [wrapLoop] at hfrag
    by_cases hc : maxWidth < measure (cur ++ w ++ [' ']) ∧ cur ≠ []
    · rw [if_pos hc] at hfrag
      rcases List.mem_cons.mp hfrag with rfl | hfrag
      · rcases hcur with h | h | h
        · exact absurd h hc.2
        · exact Or.inl (Or.inl h)
        · exact Or.inl (Or.inr h)
      · rcases ih (w ++ [' ']) (Or.inr (Or.inr ⟨w, hw, rfl⟩)) hmem' frag hfrag
          with h | ⟨_, hbad, _⟩
        · exact Or.inl h
        · exact absurd hbad (by simp)
    · rw [if_neg hc] at hfrag
      have hcur' : cur ++ w ++ [' '] = [] ∨
          measure (cur ++ w ++ [' ']) ≤ maxWidth ∨
          ∃ u ∈ toks, cur ++ w ++ [' '] = u ++ [' '] := by
        by_cases hle : measure (cur ++ w ++ [' ']) ≤ maxWidth
        · exact Or.inr (Or.inl hle)
        · have hnil : cur = [] := by
            by_contra hne
            exact hc ⟨by omega, hne⟩
          exact Or.inr (Or.inr ⟨w, hw, by rw [hnil]; simp⟩)
      rcases ih (cur ++ w ++ [' ']) hcur' hmem' frag hfrag
        with h | ⟨_, hbad, _⟩
      · exact Or.inl h
      · exact absurd hbad (by simp)

/-- Claim C6: under a font-measurement function monotone in concatenation,
every fragment emitted by the word wrap measures at most `maxWidth`, except a
fragment consisting of a single token (a space-free word of the text) with
its trailing space that alone measures wider than `maxWidth`. -/
theorem claim_C6 (measure : List Char → Nat) (maxWidth : Nat) (text : List Char)
    (_hmono : ∀ a b : List Char, measure a ≤ measure (a ++ b)) :
    ∀ frag ∈ wrapText measure text maxWidth,
      measure frag ≤ maxWidth
      ∨ ∃ w ∈ splitOnCharL ' ' text,
          ' ' ∉ w ∧ frag = w ++ [' '] ∧ maxWidth < measure frag := by
  intro frag hfrag
  rcases wrapLoop_fragments measure maxWidth (splitOnCharL ' ' text)
      (splitOnCharL ' ' text) [] (Or.inl rfl) (fun _ hu => hu) frag hfrag
    with (h | ⟨w, hw, rfl⟩) | ⟨_, _, hbad⟩
  · exact Or.inl h
  · by_cases hle : measure (w ++ [' ']) ≤ maxWidth
    · exact Or.inl hle
    · exact Or.inr ⟨w, hw, splitOnCharL_not_mem ' ' text w hw, rfl, by omega⟩
  · exact absurd hbad (splitOnCharL_ne_nil ' ' text)

/-- Claim C6 witness at `measure = List.length`, `maxWidth = 5`,
text `"ab cd"`, fragment `"ab "`. -/
theorem claim_C6_witness :
    List.length (String.toList "ab ") ≤ 5
    ∨ ∃ w ∈ splitOnCharL ' ' (String.toList "ab cd"),
        ' ' ∉ w ∧ String.toList "ab " = w ++ [' ']
          ∧ 5 < List.length (String.toList "ab ") :=
  claim_C6 List.length 5 (String.toList "ab cd")
    (fun a b => by simp)
    (String.toList "ab ") (by decide)

/-- Claim C10: the concatenation of the fragments returned by the word wrap
is the input text followed by exactly one extra trailing space, and the
fragment list is never empty. -/
theorem claim_C10 (measure : List Char → Nat) (text : List Char)
    (maxWidth : Nat) :
    (wrapText measure text maxWidth).flatten = text ++ [' ']
    ∧ wrapText measure text maxWidth ≠ [] := by
  constructor
  · rw [wrapText, wrapLoop_flatten, splitOnCharL_flatten]
    rfl
  · exact wrapLoop_ne_nil measure maxWidth (splitOnCharL ' ' text) []

/-- Categories of drawing calls issued by `generateSinglePageImage`. -/
inductive DrawKind where
  | background
  | titleText
  | body
  | footer
deriving DecidableEq, Repr

/-- One drawing call: its category, the text drawn (empty for the background
fill) and the canvas coordinates it is issued at. -/
structure DrawOp where
  kind : DrawKind
  text : List Char
  x : Nat
  y : Nat
deriving DecidableEq, Repr

/-- The inner loop of `generateSinglePageImage` over the wrapped fragments of
one paragraph: `if (y > height - 100) break; ctx.fillText(line, margin, y);
y += lineHeight;` with `height = 1440`, `margin = 60`, `lineHeight = 50`.
Returns the issued draw calls and the final cursor. -/
def drawFragments : List (List Char) → Nat → List DrawOp × Nat
  | [], y => ([], y)
  | f :: rest, y =>
    if 1440 - 100 < y then ([], y)
    else
      let r := drawFragments rest (y + 50)
      (⟨DrawKind.body, f, 60, y⟩ :: r.1, r.2)

/-- The outer loop of `generateSinglePageImage` over `page.content`: a
paragraph equal to the page title on page 1 is skipped (`continue`), any
other paragraph is word-wrapped against `maxWidth = 1080 - 60 * 2` and its
fragments drawn, then the cursor advances by the 20-pixel paragraph gap. -/
def drawParagraphs (measure : List Char → Nat) (page : PageContent) :
    List (List Char) → Nat → List DrawOp × Nat
  | [], y => ([], y)
  | paragraph :: rest, y =>
    if paragraph = page.title ∧ page.pageNumber = 1 then
      drawParagraphs measure page rest y
    else
      let r := drawFragments (wrapText measure paragraph (1080 - 60 * 2)) y
      let r2 := drawParagraphs measure page rest (r.2 + 20)
      (r.1 ++ r2.1, r2.2)

/-- The same paragraph loop with the title-deduplication branch removed:
every paragraph of the list is wrapped and drawn. Stated from the spec's
description of the skip as a filter, for comparison with `drawParagraphs`. -/
def drawParagraphsNoSkip (measure : List Char → Nat) :
    List (List Char) → Nat → List DrawOp × Nat
  | [], y => ([], y)
  | paragraph :: rest, y =>
    let r := drawFragments (wrapText measure paragraph (1080 - 60 * 2)) y
    let r2 := drawParagraphsNoSkip measure rest (r.2 + 20)
    (r.1 ++ r2.1, r2.2)

/-- The footer string `` `${page.pageNumber}/${page.totalPages}` ``. -/
def footerText (page : PageContent) : List Char :=
  (Nat.repr page.pageNumber).toList ++ '/' :: (Nat.repr page.totalPages).toList

/-- The full sequence of drawing calls of `generateSinglePageImage` once a
context is available: background fill, title at `(margin, margin + 50)`,
body paragraphs from `y = margin + 50 + 100`, and the page-number footer at
`(width - 100, height - 50)`, drawn unconditionally. -/
def renderPage (measure : List Char → Nat) (page : PageContent) : List DrawOp :=
  ⟨DrawKind.background, [], 0, 0⟩
    :: ⟨DrawKind.titleText, page.title, 60, 60 + 50⟩
    :: (drawParagraphs measure page page.content (60 + 50 + 100)).1
    ++ [⟨DrawKind.footer, footerText page, 1080 - 100, 1440 - 50⟩]

/-- `generateSinglePageImage` of `src/main.ts`: when no 2d context can be
acquired (`if (!ctx) return;`) the render yields nothing and draws nothing;
otherwise it issues the full drawing sequence and returns the encoded
result. `ctxOk` models whether `canvas.getContext('2d')` succeeds. -/
def generateSinglePageImage (measure : List Char → Nat) (ctxOk : Bool)
    (page : PageContent) : Option (List DrawOp) :=
  if ctxOk then some (renderPage measure page) else none

/-- `generateRedNoteImages` of `src/main.ts`: strips front matter, paginates,
renders each page in order and keeps only the renders that produced an
image (`if (imageData) images.push(imageData)`). -/
def generateRedNoteImages (measure : List Char → Nat)
    (ctxOk : PageContent → Bool) (content : List Char) : List (List DrawOp) :=
  (splitContentIntoPages (stripFrontMatter content)).filterMap
    (fun page => generateSinglePageImage measure (ctxOk page) page)

/-- Every draw call issued by the fragment loop is a body-text call at a
cursor position not past the bottom content boundary. -/
lemma drawFragments_mem :
    ∀ (frags : List (List Char)) (y : Nat) (op : DrawOp),
      op ∈ (drawFragments frags y).1 →
        op.kind = DrawKind.body ∧ op.y ≤ 1440 - 100 := by
  intro frags
  induction frags with
  | nil => intro y op hop; simp [drawFragments] at hop
  | cons f rest ih =>
    intro y op hop
    rw [drawFragments] at hop
    by_cases hy : 1440 - 100 < y
    · rw [if_pos hy] at hop
      simp at hop
    · rw [if_neg hy] at hop
      rcases List.mem_cons.mp hop with rfl | hop
      · exact ⟨rfl, Nat.le_of_not_lt hy⟩
      · exact ih (y + 50) op hop

/-- Once the cursor is past the bottom content boundary the fragment loop
draws nothing and leaves the cursor unchanged. -/
lemma drawFragments_past (frags : List (List Char)) (y : Nat)
    (h : 1440 - 100 < y) : drawFragments frags y = ([], y) := by
  cases frags with
  | nil => rfl
  | cons f rest => rw [drawFragments, if_pos h]

/-- Every draw call issued by the paragraph loop is a body-text call at a
cursor position not past the bottom content boundary. -/
lemma drawParagraphs_mem (measure : List Char → Nat) (page : PageContent) :
    ∀ (paras : List (List Char)) (y : Nat) (op : DrawOp),
      op ∈ (drawParagraphs measure page paras y).1 →
        op.kind = DrawKind.body ∧ op.y ≤ 1440 - 100 := by
  intro paras
  induction paras with
  | nil => intro y op hop; simp [drawParagraphs] at hop
  | cons p rest ih =>
    intro y op hop
    rw [drawParagraphs] at hop
    by_cases hc : p = page.title ∧ page.pageNumber = 1
    · rw [if_pos hc] at hop
      exact ih y op hop
    · rw [if_neg hc] at hop
      rcases List.mem_append.mp hop with hop | hop
      · exact drawFragments_mem _ y op hop
      · exact ih _ op hop

/-- Once the cursor is past the bottom content boundary the paragraph loop
draws nothing for the current paragraph nor for any later one. -/
lemma drawParagraphs_past (measure : List Char → Nat) (page : PageContent) :
    ∀ (paras : List (List Char)) (y : Nat), 1440 - 100 < y →
      (drawParagraphs measure page paras y).1 = [] := by
  intro paras
  induction paras with
  | nil => intro y h; rfl
  | cons p rest ih =>
    intro y h
    rw [drawParagraphs]
    by_cases hc : p = page.title ∧ page.pageNumber = 1
    · rw [if_pos hc]
      exact ih y h
    · rw [if_neg hc]
      simp only [drawFragments_past _ y h]
      simp [ih (y + 20) (by omega)]

/-- Claim C7: in a page render every body-text draw call happens at a cursor
position at most the bottom content boundary `height - 100`; once the cursor
exceeds the boundary no body fragment of the current or of any later
paragraph is drawn; and the footer `pageNumber/totalPages` draw call at
`(width - 100, height - 50)` is always issued, even when body content was
truncated. -/
theorem claim_C7 (measure : List Char → Nat) (page : PageContent) :
    (∀ op ∈ renderPage measure page,
        op.kind = DrawKind.body → op.y ≤ 1440 - 100)
    ∧ DrawOp.mk DrawKind.footer (footerText page) (1080 - 100) (1440 - 50)
        ∈ renderPage measure page
    ∧ ∀ (paras : List (List Char)) (y : Nat), 1440 - 100 < y →
        (drawParagraphs measure page paras y).1 = [] := by
  refine ⟨?_, ?_, fun paras y h => drawParagraphs_past measure page paras y h⟩
  · intro op hop hkind
    rw [renderPage] at hop
    rcases List.mem_cons.mp hop with rfl | hop
    · simp at hkind
    rcases List.mem_cons.mp hop with rfl | hop
    · simp at hkind
    rcases List.mem_append.mp hop with hop | hop
    · exact (drawParagraphs_mem measure page page.content _ op hop).2
    · rcases List.mem_singleton.mp hop with rfl
      simp at hkind
  · rw [renderPage]
    simp

/-- Claim C7 witness: with `measure = List.length` and a one-line page, the
paragraph loop started beyond the boundary draws nothing. -/
theorem claim_C7_witness :
    (drawParagraphs List.length
      (PageContent.mk (String.toList "t") [String.toList "t"] 1 1)
      [String.toList "body"] 1341).1 = [] :=
  (claim_C7 List.length
    (PageContent.mk (String.toList "t") [String.toList "t"] 1 1)).2.2
    [String.toList "body"] 1341 (by decide)

/-- Claim C8: the title-deduplication of the rendering loop is exactly a
filter — on page 1 every paragraph textually equal to the stored title is
skipped, wherever it occurs, and on any other page no paragraph is skipped:
the loop with the skip equals the skip-free loop on the accordingly filtered
paragraph list. -/
theorem claim_C8 (measure : List Char → Nat) (page : PageContent)
    (paras : List (List Char)) (y : Nat) :
    drawParagraphs measure page paras y
      = drawParagraphsNoSkip measure
          (if page.pageNumber = 1
           then paras.filter (fun p => decide (p ≠ page.title))
           else paras) y := by
  by_cases h1 : page.pageNumber = 1
  · rw [if_pos h1]
    induction paras generalizing y with
    | nil => rfl
    | cons p rest ih =>
      by_cases hp : p = page.title
      · rw [drawParagraphs, if_pos ⟨hp, h1⟩, List.filter_cons,
          if_neg (by simp [hp])]
        exact ih y
      · rw [drawParagraphs, if_neg (fun hand => hp hand.1), List.filter_cons,
          if_pos (by simp [hp]), drawParagraphsNoSkip]
        simp only [ih]
  · rw [if_neg h1]
    induction paras generalizing y with
    | nil => rfl
    | cons p rest ih =>
      rw [drawParagraphs, if_neg (fun hand => h1 hand.2), drawParagraphsNoSkip]
      simp only [ih]

/-- Claim C9: a single-page render yields nothing exactly when the drawing
surface cannot be acquired, and then nothing is drawn; the batch driver skips
such pages and keeps one rendered image per page whose surface was acquired,
in page order. -/
theorem claim_C9 (measure : List Char → Nat) (ctxOk : PageContent → Bool)
    (content : List Char) :
    (∀ (b : Bool) (page : PageContent),
        generateSinglePageImage measure b page = none ↔ b = false)
    ∧ generateRedNoteImages measure ctxOk content
        = ((splitContentIntoPages (stripFrontMatter content)).filter
            (fun page => ctxOk page)).map
              (fun page => renderPage measure page) := by
  constructor
  · intro b page
    cases b <;> simp [generateSinglePageImage]
  · rw [generateRedNoteImages]
    generalize splitContentIntoPages (stripFrontMatter content) = pages
    induction pages with
    | nil => rfl
    | cons pg pages ih =>
      cases hcx : ctxOk pg
      · have hnone : generateSinglePageImage measure false pg = none := rfl
        simp only [List.filterMap_cons, List.filter_cons, hcx, hnone]
        simpa using ih
      · have hsome : generateSinglePageImage measure true pg
            = some (renderPage measure pg) := rfl
        simp only [List.filterMap_cons, List.filter_cons, hcx, hsome]
        simpa using ih
